import Mathlib

/-!
# step-file-viewer: flattening and search over the product catalog

A shallow embedding of `src/main.go`.

* The Go structs `Value`, `ValueGroup`, `ProductCrossReference` and `Product`
  become Lean structures with the same field names; Go slices become lists.
* `recurseAddChildren` writes into `product.Children[i]`.  A Go slice shares its
  backing array with every copy of the slice header, so this write is seen
  through every copy of `product`.  The embedding passes that state explicitly:
  the function returns the product with its rewritten `Children` next to the
  grown flat list.  In that list an entry stands as it was when it entered the
  list; the caller that holds a copy of `product` inside the list puts the
  rewritten product in its place (`flattenStep`).  Statements about
  `recurseAddChildren` are therefore made on the rewritten product, on the
  appended part of the list, and on the call of line 164 through `flattenStep`.
* The XML tokenizer and `strings.EqualFold` belong to the Go standard library.
  The decoded top-level `Product` elements are the input of `parseProducts`,
  and the case-insensitive comparison is a parameter `equalFold` of
  `searchInValues`.
-/

namespace StepFileViewer

/-! ## Data model (`main.go` lines 16-40) -/

/-- Go struct `Value`. -/
structure Value where
  AttributeID : String
  Text : String
deriving DecidableEq

/-- Go struct `ValueGroup`. -/
structure ValueGroup where
  AttributeID : String
  Values : List Value
deriving DecidableEq

/-- Go struct `ProductCrossReference` (the Go field `Type` is spelled `Type_`). -/
structure ProductCrossReference where
  ID : String
  Type_ : String
  Values : List Value
deriving DecidableEq

/-- Go struct `Product`; `Children` holds the nested `Product` elements. -/
structure Product where
  ID : String
  ParentID : String
  Name : String
  Values : List Value
  ValueGroup : List ValueGroup
  CrossReference : List ProductCrossReference
  Children : List Product

/-! ## Termination measure for the recursion over the tree -/

mutual
/-- Number of nodes and list cells of a product tree. -/
def Product.size : Product → Nat
  | ⟨_, _, _, _, _, _, cs⟩ => 1 + sizeList cs
/-- Size of a children sequence. -/
def sizeList : List Product → Nat
  | [] => 0
  | p :: ps => 1 + p.size + sizeList ps
end

/-! ## The tree flattener (`main.go` lines 170-184) -/

mutual
/-- `recurseAddChildren(product, products)`.  The first component is `product`
as every holder of its `Children` array sees it after the call, that is with
the children sequence that the loop has written back.  The second component
lists the entries of the returned slice, each as it stood when it entered the
list: the entries of `products` as passed, then every appended `p` after its
children were rewritten.  What the returned slice shows through an entry of
`products` that shares a `Children` array with `product` is the rewritten
sequence of the first component; the caller puts it in place (`flattenStep`). -/
def recurseAddChildren (product : Product) (products : List Product) :
    Product × List Product :=
  let r := rangeChildren product.ID product.Children products
  ({ product with Children := r.1 }, r.2)
termination_by 2 * product.size + 1
decreasing_by
  cases product
  simp [Product.size]
  omega
/-- The loop `for i, p := range product.Children` of `recurseAddChildren`, with
`id` the value of `product.ID`: returns the children sequence after the
write-backs `product.Children[i] = p` and the grown flat list. -/
def rangeChildren (id : String) (children : List Product) (products : List Product) :
    List Product × List Product :=
  match children with
  | [] => ([], products)
  | p :: rest =>
    -- p.ParentID = product.ID ; product.Children[i] = p
    let p1 := { p with ParentID := id }
    -- products = recurseAddChildren(p, products)
    let r := recurseAddChildren p1 products
    -- p.Children shares its backing array with the sequence just rewritten
    let p2 := r.1
    -- if p.ID != "" then products = append(products, p)
    let products1 := if p2.ID ≠ "" then r.2 ++ [p2] else r.2
    let r2 := rangeChildren id rest products1
    (p2 :: r2.1, r2.2)
termination_by 2 * sizeList children + 2
decreasing_by
  · have h : p.size = 1 + sizeList p.Children := by
      cases p
      simp [Product.size]
    simp [sizeList, Product.size]
    omega
  · simp [sizeList]
end

/-! ## `parseProducts` (`main.go` lines 105-168) -/

/-- The decode loop of `parseProducts` (lines 129-161) over the `Product`
elements that `decoder.DecodeElement` yields, in document order: an element is
appended when its `ID` is not empty. -/
def decodeLoop (decoded : List Product) : List Product :=
  decoded.foldl (fun products p => if p.ID ≠ "" then products ++ [p] else products) []

/-- One iteration of `for _, p := range products` (lines 163-165) at index `i`
of the slice `tops` the loop ranges over: `p` is a copy of `tops[i]`, the call
returns the grown list, and the rewritten children of `p` are seen through
entry `i` of the list because both share one backing array. -/
def flattenStep (tops : List Product) (products : List Product) (i : Nat) : List Product :=
  match tops[i]? with
  | none => products
  | some p =>
    let r := recurseAddChildren p products
    r.2.set i r.1

/-- The flattening pass of `parseProducts` (lines 163-167): the range
expression is evaluated once, so the loop visits the top-level entries only. -/
def flattenPass (products : List Product) : List Product :=
  (List.range products.length).foldl (flattenStep products) products

/-- `parseProducts` as a function of the decoded top-level `Product` elements. -/
def parseProducts (decoded : List Product) : List Product :=
  flattenPass (decodeLoop decoded)

/-! ## The attribute matcher (`main.go` lines 186-208) -/

/-- The loop over `product.Values` (lines 187-191). -/
def searchValues (equalFold : String → String → Bool) (property value : String) :
    List Value → Bool
  | [] => false
  | v :: vs =>
    if equalFold v.AttributeID property && v.Text == value then true
    else searchValues equalFold property value vs

/-- The inner loop over `g.Values` (lines 195-199). -/
def searchGroupValues (value : String) : List Value → Bool
  | [] => false
  | v :: vs => if v.Text == value then true else searchGroupValues value vs

/-- The loop over `product.ValueGroup` (lines 193-201). -/
def searchGroups (equalFold : String → String → Bool) (property value : String) :
    List ValueGroup → Bool
  | [] => false
  | g :: gs =>
    if equalFold g.AttributeID property && searchGroupValues value g.Values then true
    else searchGroups equalFold property value gs

/-- `searchInValues(property, value, product)`; `equalFold` stands for
`strings.EqualFold`.  The last loop returns in its first iteration. -/
def searchInValues (equalFold : String → String → Bool) (property value : String) :
    Product → Bool
  | ⟨_, _, _, vals, groups, _, children⟩ =>
    if searchValues equalFold property value vals then true
    else if searchGroups equalFold property value groups then true
    else match children with
      | [] => false
      | p :: _ => searchInValues equalFold property value p

/-- `strings.EqualFold` on ASCII text: equality after mapping `A`-`Z` to
`a`-`z`.  Used to run the matcher on concrete inputs. -/
def asciiEqualFold (s t : String) : Bool :=
  s.data.map Char.toLower == t.data.map Char.toLower

/-! ## `main`: match set and output file name (lines 86-102) -/

/-- The loop of `main` lines 86-93 over `products`. -/
def matchProducts (equalFold : String → String → Bool) (searchField searchValue : String)
    (products : List Product) : List Product :=
  products.foldl
    (fun matched p =>
      if searchInValues equalFold searchField searchValue p then matched ++ [p] else matched)
    []

/-- The match set of a run that parses the document (lines 73-93): `products`
is what `parseProducts` returned. -/
def matchFresh (equalFold : String → String → Bool) (searchField searchValue : String)
    (decoded : List Product) : List Product :=
  matchProducts equalFold searchField searchValue (parseProducts decoded)

/-- `strings.Replace(s, old, new, -1)` for a non-empty `old`, on the characters
of `s`: `skip` counts the characters of a match still to be dropped. -/
def replaceFrom (old new : List Char) : Nat → List Char → List Char
  | _, [] => []
  | skip + 1, _ :: cs => replaceFrom old new skip cs
  | 0, c :: cs =>
    if old.isPrefixOf (c :: cs) then new ++ replaceFrom old new (old.length - 1) cs
    else c :: replaceFrom old new 0 cs

/-- `fmt.Sprintf("step-%s-%s.json", id, name)`. -/
def sprintfStep (id name : String) : String :=
  "step-" ++ id ++ "-" ++ name ++ ".json"

/-- The `fileName` of line 98.  Line 101 resolves it against the working
directory with `path.Join`, which cleans the path; that step is not part of the
name computed here. -/
def fileName (p : Product) : String :=
  String.mk (replaceFrom [' '] ['_'] 0 (sprintfStep p.ID p.Name).data)

/-! ## Vocabulary of the specification -/

mutual
/-- The proper descendants of a product (children, grandchildren, ...), each
listed once and paired with the `ID` of the product whose `Children` holds it;
the descendants of a child come before the child. -/
def descendantsP : Product → List (String × Product)
  | ⟨id, _, _, _, _, _, cs⟩ => descList id cs
/-- The products of a children sequence `cs` of a product with `ID` equal to
`pid`, together with all their descendants. -/
def descList (pid : String) : List Product → List (String × Product)
  | [] => []
  | c :: cs => (descendantsP c ++ [(pid, c)]) ++ descList pid cs
end

mutual
/-- A nested product after flattening: `ParentID` is `pid`, and every product
below it carries the `ID` of the product that contains it. -/
def setParents (pid : String) : Product → Product
  | ⟨id, _, n, v, g, x, cs⟩ => ⟨id, pid, n, v, g, x, setParentsList id cs⟩
/-- The children sequence of a product with `ID` equal to `pid` after flattening. -/
def setParentsList (pid : String) : List Product → List Product
  | [] => []
  | c :: cs => setParents pid c :: setParentsList pid cs
end

/-- A top-level product after flattening: its own `ParentID` is kept. -/
def setParentsTop (p : Product) : Product :=
  { p with Children := setParentsList p.ID p.Children }

/-- The flat-list entries of a list of (parent id, descendant) pairs: the pairs
with a non-empty descendant `ID`, each as the descendant after flattening. -/
def entries (l : List (String × Product)) : List Product :=
  (l.filter (fun x => decide (x.2.ID ≠ ""))).map (fun x => setParents x.1 x.2)

mutual
/-- Every product below `p`, at every depth, carries in `ParentID` the `ID` of
the product whose `Children` contains it. -/
def wellParented : Product → Bool
  | ⟨id, _, _, _, _, _, cs⟩ => wellParentedList id cs
/-- The same for the children sequence `cs` of a product with `ID` equal to `pid`. -/
def wellParentedList (pid : String) : List Product → Bool
  | [] => true
  | c :: cs => c.ParentID == pid && wellParented c && wellParentedList pid cs
end

mutual
/-- The product with `ParentID` blanked on itself and on every product below
it: two products agree in every field other than `ParentID`, at every depth,
when their images are equal. -/
def forgetParents : Product → Product
  | ⟨id, _, n, v, g, x, cs⟩ => ⟨id, "", n, v, g, x, forgetParentsList cs⟩
/-- Image of a children sequence under `forgetParents`. -/
def forgetParentsList : List Product → List Product
  | [] => []
  | c :: cs => forgetParents c :: forgetParentsList cs
end

mutual
/-- Every product of a tree, the root included, each listed once. -/
def allNodes : Product → List Product
  | ⟨id, pid, n, v, g, x, cs⟩ => ⟨id, pid, n, v, g, x, cs⟩ :: allNodesList cs
/-- Every product that occurs in a list of trees, top-level or nested. -/
def allNodesList : List Product → List Product
  | [] => []
  | c :: cs => allNodes c ++ allNodesList cs
end

/-- The output file name as the specification words it: the `id` unchanged and
every whitespace character of the `name` replaced by an underscore. -/
def fileNameSpec (p : Product) : String :=
  "step-" ++ p.ID ++ "-"
    ++ String.mk (p.Name.data.map (fun c => if c.isWhitespace then '_' else c)) ++ ".json"

/-! ## Sample catalog entries -/

/-- A product without children, with one direct value. -/
def leaf (id attributeID text : String) : Product :=
  ⟨id, "", "", [⟨attributeID, text⟩], [], [], []⟩

/-- The document of the end-to-end scenario: product `1` (Color = Red) with one
child `2` (Size = M). -/
def scenario : Product :=
  ⟨"1", "", "", [⟨"Color", "Red"⟩], [], [], [leaf "2" "Size" "M"]⟩

/-- Product `1` whose second child `3`, and no other place, holds Size = M. -/
def secondChildOnly : Product :=
  ⟨"1", "", "", [⟨"Color", "Red"⟩], [], [], [leaf "2" "Color" "Blue", leaf "3" "Size" "M"]⟩

/-- A top-level element with an empty `ID` and one child with `ID` `a`. -/
def emptyTop : Product :=
  ⟨"", "", "", [], [], [], [leaf "a" "Size" "M"]⟩

/-- Product `1` whose only child has an empty `ID` and itself a child `a`. -/
def emptyNested : Product :=
  ⟨"1", "", "", [], [], [], [⟨"", "", "", [], [], [], [leaf "a" "Size" "M"]⟩]⟩

/-- A product whose `ID` holds a space and whose `Name` holds a tab. -/
def spacedNames : Product :=
  ⟨"a b", "", "x\ty", [], [], [], []⟩

/-! ## Characterisation of the flattener -/

mutual
theorem recurseAddChildren_eq : ∀ (p : Product) (q : String) (acc : List Product),
    recurseAddChildren { p with ParentID := q } acc
      = ({ p with ParentID := q, Children := setParentsList p.ID p.Children },
         acc ++ entries (descendantsP p))
  | ⟨id, pid, n, v, g, x, cs⟩, q, acc => by
    rw [recurseAddChildren]
    simp [rangeChildren_eq cs id acc, descendantsP]
theorem rangeChildren_eq : ∀ (cs : List Product) (id : String) (acc : List Product),
    rangeChildren id cs acc = (setParentsList id cs, acc ++ entries (descList id cs))
  | [], id, acc => by
    rw [rangeChildren]
    simp [setParentsList, descList, entries]
  | c :: cs, id, acc => by
    rw [rangeChildren]
    simp only [recurseAddChildren_eq c id acc]
    rw [rangeChildren_eq cs id]
    cases c
    simp [setParentsList, setParents, descList, entries, List.filter_append]
    split <;> simp [List.filter_cons, *, setParents]
end

theorem recurseAddChildren_spec (p : Product) (acc : List Product) :
    recurseAddChildren p acc = (setParentsTop p, acc ++ entries (descendantsP p)) := by
  cases p with
  | mk id pid n v g x cs => exact recurseAddChildren_eq ⟨id, pid, n, v, g, x, cs⟩ pid acc

theorem entries_append (a b : List (String × Product)) :
    entries (a ++ b) = entries a ++ entries b := by
  simp [entries, List.filter_append]

theorem set_length_append (a b : List Product) (p q : Product) :
    (a ++ p :: b).set a.length q = a ++ q :: b := by
  induction a with
  | nil => simp
  | cons x xs ih => simp [ih]

theorem flattenPass_fold (tops : List Product) : ∀ k, k ≤ tops.length →
    (List.range k).foldl (flattenStep tops) tops
      = (tops.take k).map setParentsTop ++ tops.drop k
          ++ entries ((tops.take k).flatMap descendantsP) := by
  intro k
  induction k with
  | zero => intro _; simp [entries]
  | succ k ih =>
    intro hk
    have hlt : k < tops.length := by omega
    rw [List.range_succ, List.foldl_append, ih (by omega)]
    simp only [List.foldl_cons, List.foldl_nil, flattenStep]
    rw [List.getElem?_eq_getElem hlt]
    simp only [recurseAddChildren_spec]
    rw [List.drop_eq_getElem_cons hlt]
    have hlen : ((tops.take k).map setParentsTop).length = k := by simp; omega
    have hset := set_length_append ((tops.take k).map setParentsTop)
      (tops.drop (k + 1) ++ entries ((tops.take k).flatMap descendantsP)
        ++ entries (descendantsP tops[k])) tops[k] (setParentsTop tops[k])
    rw [hlen] at hset
    simp only [List.append_assoc, List.cons_append] at hset ⊢
    rw [hset]
    rw [List.take_succ, List.getElem?_eq_getElem hlt]
    simp only [Option.toList, List.map_append, List.flatMap_append, entries_append,
      List.map_cons, List.map_nil, List.flatMap_cons, List.flatMap_nil, List.append_nil,
      List.append_assoc, List.cons_append, List.nil_append]

theorem flattenPass_spec (tops : List Product) :
    flattenPass tops = tops.map setParentsTop ++ entries (tops.flatMap descendantsP) := by
  have h := flattenPass_fold tops tops.length (Nat.le_refl _)
  simpa [flattenPass] using h

theorem decodeLoop_fold (decoded : List Product) : ∀ acc : List Product,
    decoded.foldl (fun products p => if p.ID ≠ "" then products ++ [p] else products) acc
      = acc ++ decoded.filter (fun p => decide (p.ID ≠ "")) := by
  induction decoded with
  | nil => intro acc; simp
  | cons p ps ih =>
    intro acc
    simp only [List.foldl_cons, ih]
    by_cases h : p.ID = "" <;> simp [h, List.filter_cons]

theorem decodeLoop_spec (decoded : List Product) :
    decodeLoop decoded = decoded.filter (fun p => decide (p.ID ≠ "")) := by
  have h := decodeLoop_fold decoded []
  simpa [decodeLoop] using h

theorem setParents_ID (q : String) (c : Product) : (setParents q c).ID = c.ID := by
  cases c
  rfl

theorem setParents_ParentID (q : String) (c : Product) : (setParents q c).ParentID = q := by
  cases c
  rfl

theorem parseProducts_spec (decoded : List Product) :
    parseProducts decoded
      = (decoded.filter (fun p => decide (p.ID ≠ ""))).map setParentsTop
        ++ entries ((decoded.filter (fun p => decide (p.ID ≠ ""))).flatMap descendantsP) := by
  rw [parseProducts, decodeLoop_spec, flattenPass_spec]

theorem recurseAddChildren_fst (c : Product) (q : String) (acc : List Product) :
    (recurseAddChildren { c with ParentID := q } acc).1 = setParents q c := by
  rw [recurseAddChildren_eq]
  cases c
  simp [setParents]

theorem entries_descList (pid : String) (cs : List Product) :
    entries (descList pid cs)
      = cs.flatMap (fun c =>
          entries (descendantsP c) ++ (if c.ID ≠ "" then [setParents pid c] else [])) := by
  induction cs with
  | nil => simp [descList, entries]
  | cons c cs ih =>
    simp only [descList, entries_append, ih, List.flatMap_cons]
    by_cases h : c.ID = "" <;> simp [entries, h]

/-! ## The claims about the flattener -/

/-- Claim C1, as stated, fails: at the call of line 164 on the scenario
document `products` holds product `1`, whose `Children` array is the one the
call rewrites.  The list passed in shows child `2` with an empty `ParentID`;
the list that comes back shows it, through the same first entry, with
`ParentID` `1`: the list passed in is not an unchanged front part of it. -/
theorem recurseAddChildren_rewrites_shared_entry :
    [scenario].map (fun e => (e.ID, e.Children.map (fun c => (c.ID, c.ParentID))))
        = [("1", [("2", "")])]
      ∧ (flattenStep [scenario] [scenario] 0).map
          (fun e => (e.ID, e.Children.map (fun c => (c.ID, c.ParentID))))
        = [("1", [("2", "1")]), ("2", [])]
      ∧ ¬ ∃ l : List Product, flattenStep [scenario] [scenario] 0 = [scenario] ++ l := by
  have h : (flattenStep [scenario] [scenario] 0).map
      (fun e => (e.ID, e.Children.map (fun c => (c.ID, c.ParentID))))
      = [("1", [("2", "1")]), ("2", [])] := by
    simp only [flattenStep, List.getElem?_cons_zero, recurseAddChildren_spec]
    decide
  refine ⟨by decide, h, ?_⟩
  rintro ⟨l, hl⟩
  rw [hl] at h
  simp only [List.singleton_append, List.map_cons, List.cons.injEq, Prod.mk.injEq] at h
  exact absurd h.1.2 (by decide)

/-- Claim C1, amended: for every product `P` and list `acc`, the list
`recurseAddChildren(P, acc)` returns has the entries of `acc` in front, each
agreeing with the entry of `acc` at its place in every field other than the
`ParentID` of the products nested in it, followed by one entry for each proper
descendant of `P` whose `ID` is not empty, and nothing else (`descendantsP P`
lists every proper descendant once, never `P` itself, also those below a
descendant with an empty `ID`).  The children of `P` are rewritten in place, so
an entry of `acc` that holds the `Children` array of `P`, as `products[i]` does
at the call of line 164, shows the rewritten children. -/
theorem recurseAddChildren_appended (P : Product) (acc : List Product) :
    ((recurseAddChildren P acc).2.take acc.length).map
          (fun e => (e.ParentID, forgetParents e))
        = acc.map (fun e => (e.ParentID, forgetParents e))
      ∧ (recurseAddChildren P acc).2.drop acc.length
        = ((descendantsP P).filter (fun x => decide (x.2.ID ≠ ""))).map
            (fun x => setParents x.1 x.2)
      ∧ (recurseAddChildren P acc).1 = { P with Children := setParentsList P.ID P.Children }
      ∧ ∀ (tops : List Product) (i : Nat), tops[i]? = some P → acc[i]? = some P →
          flattenStep tops acc i
            = acc.set i { P with Children := setParentsList P.ID P.Children }
              ++ ((descendantsP P).filter (fun x => decide (x.2.ID ≠ ""))).map
                  (fun x => setParents x.1 x.2) := by
  refine ⟨?_, ?_, ?_, ?_⟩
  · rw [recurseAddChildren_spec, List.take_left]
  · rw [recurseAddChildren_spec, List.drop_left]
    rfl
  · rw [recurseAddChildren_spec]
    rfl
  · intro tops i ht ha
    have hi : i < acc.length := by
      rcases Nat.lt_or_ge i acc.length with h | h
      · exact h
      · rw [List.getElem?_eq_none h] at ha
        exact absurd ha (by simp)
    simp only [flattenStep, ht, recurseAddChildren_spec]
    rw [List.set_append_left _ _ hi]
    rfl

theorem recurseAddChildren_appended_witness :
    flattenStep [scenario] [scenario] 0
      = [scenario].set 0 { scenario with Children := setParentsList scenario.ID scenario.Children }
        ++ ((descendantsP scenario).filter (fun x => decide (x.2.ID ≠ ""))).map
            (fun x => setParents x.1 x.2) :=
  (recurseAddChildren_appended scenario [scenario]).2.2.2 [scenario] 0 rfl rfl

/-- Claim C2: in the list the flattening pass returns, the first entries are the
top-level products with their `ID` and `ParentID` as handed in (an empty
`ParentID` stays empty), and the entries appended after them are the nested
products with a non-empty `ID`, each with `ParentID` equal to the `ID` of the
product whose `Children` holds it.  The scenario document flattens to the
entries `1` (no parent) and `2` (parent `1`). -/
theorem flattenPass_parentIDs (tops : List Product) :
    ((flattenPass tops).take tops.length).map (fun e => (e.ID, e.ParentID))
        = tops.map (fun t => (t.ID, t.ParentID))
      ∧ ((flattenPass tops).drop tops.length).map (fun e => (e.ID, e.ParentID))
        = ((tops.flatMap descendantsP).filter (fun x => decide (x.2.ID ≠ ""))).map
            (fun x => (x.2.ID, x.1))
      ∧ (flattenPass [scenario]).map (fun e => (e.ID, e.ParentID)) = [("1", ""), ("2", "1")] := by
  have hlen : (tops.map setParentsTop).length = tops.length := by simp
  refine ⟨?_, ?_, ?_⟩
  · rw [flattenPass_spec, ← hlen, List.take_left]
    simp [setParentsTop]
  · rw [flattenPass_spec, ← hlen, List.drop_left]
    simp only [entries, List.map_map]
    apply List.map_congr_left
    intro x _
    simp [setParents_ID, setParents_ParentID]
  · rw [flattenPass_spec]
    simp [scenario, leaf, setParentsTop, entries, descendantsP, descList, setParents,
      setParentsList]

/-- Claim C10: the flat list is in post-order.  In `recurseAddChildren(P, acc)`
the part appended after the entries of `acc` is the concatenation, child by
child in the order of `P.Children`, of the block of each child `c`: first
everything the recursive call on `c` appends, then the entry of `c` itself when
its `ID` is not empty.  `parseProducts` returns the kept top-level products in
document order followed by what the call on each of them appends, in the same
order. -/
theorem flat_list_post_order :
    (∀ (P : Product) (acc : List Product),
      (recurseAddChildren P acc).2.drop acc.length
        = P.Children.flatMap (fun c =>
            (recurseAddChildren { c with ParentID := P.ID } []).2
              ++ (if c.ID ≠ "" then [(recurseAddChildren { c with ParentID := P.ID } []).1]
                  else [])))
      ∧ (∀ decoded : List Product,
          parseProducts decoded
            = (decoded.filter (fun p => decide (p.ID ≠ ""))).map
                (fun t => (recurseAddChildren t []).1)
              ++ (decoded.filter (fun p => decide (p.ID ≠ ""))).flatMap
                (fun t => (recurseAddChildren t []).2)) := by
  constructor
  · intro P acc
    rw [recurseAddChildren_spec, List.drop_left]
    cases P with
    | mk id pid n v g x cs =>
      simp only [descendantsP, entries_descList, recurseAddChildren_fst]
      apply List.flatMap_congr
      intro c _
      rw [recurseAddChildren_eq]
      simp
  · intro decoded
    rw [parseProducts_spec]
    simp only [recurseAddChildren_spec, List.nil_append]
    congr 1
    generalize decoded.filter (fun p => decide (p.ID ≠ "")) = kept
    induction kept with
    | nil => simp [entries]
    | cons t ts ih => simp [entries_append, ih]

mutual
theorem forgetParents_setParents : ∀ (c : Product) (q : String),
    forgetParents (setParents q c) = forgetParents c
  | ⟨id, pid, n, v, g, x, cs⟩, q => by
    simp [setParents, forgetParents, forgetParentsList_setParentsList cs id]
theorem forgetParentsList_setParentsList : ∀ (cs : List Product) (q : String),
    forgetParentsList (setParentsList q cs) = forgetParentsList cs
  | [], q => by simp [setParentsList]
  | c :: cs, q => by
    simp [setParentsList, forgetParentsList, forgetParents_setParents c q,
      forgetParentsList_setParentsList cs q]
end

mutual
theorem wellParented_setParents : ∀ (c : Product) (q : String),
    wellParented (setParents q c) = true
  | ⟨id, pid, n, v, g, x, cs⟩, q => by
    simp [setParents, wellParented, wellParentedList_setParentsList cs id]
theorem wellParentedList_setParentsList : ∀ (cs : List Product) (q : String),
    wellParentedList q (setParentsList q cs) = true
  | [], q => by simp [setParentsList, wellParentedList]
  | c :: cs, q => by
    simp [setParentsList, wellParentedList, wellParented_setParents c q,
      wellParentedList_setParentsList cs q, setParents_ParentID]
end

theorem forgetParents_setParentsTop (t : Product) :
    forgetParents (setParentsTop t) = forgetParents t := by
  cases t
  simp [setParentsTop, forgetParents, forgetParentsList_setParentsList]

theorem wellParented_setParentsTop (t : Product) : wellParented (setParentsTop t) = true := by
  cases t
  simp [setParentsTop, wellParented, wellParentedList_setParentsList]

theorem map_forgetParents_entries (l : List (String × Product)) :
    (entries l).map forgetParents
      = ((l.filter (fun x => decide (x.2.ID ≠ ""))).map Prod.snd).map forgetParents := by
  simp only [entries, List.map_map]
  apply List.map_congr_left
  intro x _
  simp [forgetParents_setParents]

theorem map_forgetParents_flattenPass (tops : List Product) :
    (flattenPass tops).map forgetParents
        = (tops ++ ((tops.flatMap descendantsP).filter
            (fun x => decide (x.2.ID ≠ ""))).map Prod.snd).map forgetParents := by
  rw [flattenPass_spec, List.map_append, List.map_append, map_forgetParents_entries]
  congr 1
  simp only [List.map_map]
  apply List.map_congr_left
  intro t _
  simp [forgetParents_setParentsTop]

/-- Claim C9: after the flattening pass every entry of the flat list, top-level
or appended, still carries its nested children.  Entry by entry, in order, the
list agrees with the top-level products followed by the nested products with a
non-empty `ID` in every field other than `ParentID`, at every depth of the
children; and in every entry each nested product, at every depth, has
`ParentID` equal to the `ID` of the product whose `Children` contains it. -/
theorem flattenPass_keeps_children (tops : List Product) :
    (flattenPass tops).map forgetParents
        = (tops ++ ((tops.flatMap descendantsP).filter
            (fun x => decide (x.2.ID ≠ ""))).map Prod.snd).map forgetParents
      ∧ ∀ e ∈ flattenPass tops, wellParented e = true := by
  refine ⟨map_forgetParents_flattenPass tops, ?_⟩
  rw [flattenPass_spec]
  · intro e he
    rcases List.mem_append.mp he with h | h
    · obtain ⟨t, _, rfl⟩ := List.mem_map.mp h
      exact wellParented_setParentsTop t
    · obtain ⟨x, _, rfl⟩ := List.mem_map.mp h
      exact wellParented_setParents x.2 x.1

theorem flattenPass_keeps_children_witness :
    ((flattenPass [scenario]).map forgetParents
        = ([scenario] ++ (([scenario].flatMap descendantsP).filter
            (fun x => decide (x.2.ID ≠ ""))).map Prod.snd).map forgetParents)
      ∧ wellParented (setParentsTop scenario) = true
      ∧ (setParentsTop scenario).Children.map (fun c => (c.ID, c.ParentID)) = [("2", "1")] :=
  ⟨(flattenPass_keeps_children [scenario]).1,
    (flattenPass_keeps_children [scenario]).2 (setParentsTop scenario)
      (by rw [flattenPass_spec]; simp),
    by decide⟩

mutual
theorem perm_allNodes : ∀ (c : Product),
    List.Perm (c :: (descendantsP c).map Prod.snd) (allNodes c)
  | ⟨id, pid, n, v, g, x, cs⟩ => by
    simp only [descendantsP, allNodes]
    exact List.Perm.cons _ (perm_allNodesList cs id)
theorem perm_allNodesList : ∀ (cs : List Product) (q : String),
    List.Perm ((descList q cs).map Prod.snd) (allNodesList cs)
  | [], q => by simp [descList, allNodesList]
  | c :: cs, q => by
    simp only [descList, allNodesList, List.map_append, List.map_cons, List.map_nil]
    refine List.Perm.append ?_ (perm_allNodesList cs q)
    exact List.Perm.trans (List.perm_append_singleton c _) (perm_allNodes c)
end

theorem perm_forest (ts : List Product) :
    List.Perm (ts ++ (ts.flatMap descendantsP).map Prod.snd) (allNodesList ts) := by
  induction ts with
  | nil => simp [allNodesList]
  | cons t ts ih =>
    simp only [allNodesList, List.flatMap_cons, List.map_append, List.cons_append]
    have h1 : List.Perm (t :: (ts ++ ((descendantsP t).map Prod.snd
        ++ (ts.flatMap descendantsP).map Prod.snd)))
        ((t :: (descendantsP t).map Prod.snd)
          ++ (ts ++ (ts.flatMap descendantsP).map Prod.snd)) := by
      rw [List.cons_append]
      refine List.Perm.cons _ ?_
      rw [← List.append_assoc, ← List.append_assoc]
      exact List.Perm.append_right _ List.perm_append_comm
    exact h1.trans (List.Perm.append (perm_allNodes t) ih)

theorem filter_filter_nonEmpty (l : List Product) :
    (l.filter (fun p => decide (p.ID ≠ ""))).filter (fun p => decide (p.ID ≠ ""))
      = l.filter (fun p => decide (p.ID ≠ "")) := by
  simp [List.filter_filter]

theorem map_forgetParents_parseProducts (decoded : List Product) :
    (parseProducts decoded).map forgetParents
      = (((decoded.filter (fun p => decide (p.ID ≠ "")))
          ++ ((decoded.filter (fun p => decide (p.ID ≠ ""))).flatMap descendantsP).map
              Prod.snd).filter (fun p => decide (p.ID ≠ ""))).map forgetParents := by
  have h := map_forgetParents_flattenPass (decoded.filter (fun p => decide (p.ID ≠ "")))
  rw [parseProducts, decodeLoop_spec, h, List.filter_append, filter_filter_nonEmpty,
    List.filter_map]
  rfl

theorem parseProducts_nonEmpty (decoded : List Product) :
    ∀ e ∈ parseProducts decoded, e.ID ≠ "" := by
  intro e he
  rw [parseProducts_spec] at he
  rcases List.mem_append.mp he with h | h
  · obtain ⟨t, ht, rfl⟩ := List.mem_map.mp h
    have := (List.mem_filter.mp ht).2
    simpa [setParentsTop] using this
  · obtain ⟨x, hx, rfl⟩ := List.mem_map.mp h
    have := (List.mem_filter.mp hx).2
    simpa [setParents_ID] using this

/-- Claim C3, as stated, fails: the catalog whose only top-level element has an
empty `ID` and a child `a` is parsed to the empty collection, although the
product `a` occurs in the source tree with a non-empty `ID`. -/
theorem parseProducts_misses_below_empty_top :
    parseProducts [emptyTop] = []
      ∧ ((allNodesList [emptyTop]).filter (fun p => decide (p.ID ≠ ""))).map Product.ID = ["a"]
      ∧ ¬ List.Perm ((parseProducts [emptyTop]).map forgetParents)
          (((allNodesList [emptyTop]).filter
            (fun p => decide (p.ID ≠ ""))).map forgetParents) := by
  have h1 : parseProducts [emptyTop] = [] := by
    rw [parseProducts_spec]
    simp [emptyTop, entries]
  have h2 : ((allNodesList [emptyTop]).filter (fun p => decide (p.ID ≠ ""))).map Product.ID
      = ["a"] := by
    simp [emptyTop, leaf, allNodesList, allNodes, List.filter_cons]
  refine ⟨h1, h2, ?_⟩
  intro h
  have hl := congrArg List.length h2
  have hp := h.length_eq
  rw [h1] at hp
  simp only [List.length_map, List.map_nil, List.length_nil, List.length_cons] at hl hp
  omega

/-- Claim C3, amended: the collection `parseProducts` returns holds, each once,
exactly the products with a non-empty `ID` that occur, top-level or nested at
any depth, in the trees of the top-level elements whose own `ID` is not empty
(the entry of a product agrees with it in every field other than `ParentID`);
this includes the non-empty-`ID` descendants of a nested product whose `ID` is
empty.  No entry has an empty `ID`. -/
theorem parseProducts_contains_once (decoded : List Product) :
    List.Perm ((parseProducts decoded).map forgetParents)
        (((allNodesList (decoded.filter (fun p => decide (p.ID ≠ "")))).filter
          (fun p => decide (p.ID ≠ ""))).map forgetParents)
      ∧ ∀ e ∈ parseProducts decoded, e.ID ≠ "" := by
  refine ⟨?_, parseProducts_nonEmpty decoded⟩
  rw [map_forgetParents_parseProducts]
  exact ((perm_forest _).filter _).map _

theorem parseProducts_contains_once_witness :
    (parseProducts [emptyNested, emptyTop]).map (fun e => (e.ID, e.ParentID))
        = [("1", ""), ("a", "")]
      ∧ List.Perm ((parseProducts [emptyNested, emptyTop]).map forgetParents)
          (((allNodesList ([emptyNested, emptyTop].filter (fun p => decide (p.ID ≠ "")))).filter
            (fun p => decide (p.ID ≠ ""))).map forgetParents)
      ∧ (setParentsTop emptyNested).ID ≠ "" :=
  ⟨by rw [parseProducts_spec]; decide,
    (parseProducts_contains_once [emptyNested, emptyTop]).1,
    (parseProducts_contains_once [emptyNested, emptyTop]).2 (setParentsTop emptyNested)
      (by rw [parseProducts_spec]; simp [emptyNested, emptyTop])⟩

/-- Claim C7: a top-level element with an empty `ID` leaves no trace in what
`parseProducts` returns: the result is the one obtained from the catalog
without that element, so neither the element nor any product nested inside it
contributes an entry. -/
theorem parseProducts_skips_empty_top (before after : List Product) (e : Product)
    (h : e.ID = "") :
    parseProducts (before ++ e :: after) = parseProducts (before ++ after) := by
  simp [parseProducts, decodeLoop_spec, List.filter_append, List.filter_cons, h]

theorem parseProducts_skips_empty_top_witness :
    emptyTop.ID = "" ∧ emptyTop.Children.map Product.ID = ["a"]
      ∧ parseProducts ([scenario] ++ emptyTop :: []) = parseProducts ([scenario] ++ []) :=
  ⟨rfl, rfl, parseProducts_skips_empty_top [scenario] [] emptyTop rfl⟩

/-! ## The claims about the matcher -/

theorem searchValues_iff (equalFold : String → String → Bool) (f v : String)
    (vals : List Value) :
    searchValues equalFold f v vals = true
      ↔ ∃ x ∈ vals, equalFold x.AttributeID f = true ∧ x.Text = v := by
  induction vals with
  | nil => simp [searchValues]
  | cons a as ih =>
    simp only [searchValues, List.mem_cons, exists_eq_or_imp]
    by_cases h : (equalFold a.AttributeID f && a.Text == v) = true
    · simp only [h, if_true, true_iff]
      left
      simpa using h
    · simp only [h, if_false, Bool.false_eq_true, ih]
      have h2 : ¬ (equalFold a.AttributeID f = true ∧ a.Text = v) := by simpa using h
      simp [h2]

theorem searchGroupValues_iff (v : String) (vals : List Value) :
    searchGroupValues v vals = true ↔ ∃ x ∈ vals, x.Text = v := by
  induction vals with
  | nil => simp [searchGroupValues]
  | cons a as ih =>
    simp only [searchGroupValues, List.mem_cons, exists_eq_or_imp]
    by_cases h : a.Text = v
    · simp [h]
    · simp [h, ih]

theorem searchGroups_iff (equalFold : String → String → Bool) (f v : String)
    (groups : List ValueGroup) :
    searchGroups equalFold f v groups = true
      ↔ ∃ g ∈ groups, equalFold g.AttributeID f = true ∧ ∃ x ∈ g.Values, x.Text = v := by
  induction groups with
  | nil => simp [searchGroups]
  | cons a as ih =>
    simp only [searchGroups, List.mem_cons, exists_eq_or_imp]
    by_cases h : (equalFold a.AttributeID f && searchGroupValues v a.Values) = true
    · simp only [h, if_true, true_iff]
      left
      rw [Bool.and_eq_true, searchGroupValues_iff] at h
      exact h
    · simp only [h, if_false, Bool.false_eq_true, ih]
      rw [Bool.and_eq_true, searchGroupValues_iff] at h
      simp [h]

theorem searchInValues_unfold (equalFold : String → String → Bool) (f v : String)
    (P : Product) :
    searchInValues equalFold f v P
      = (searchValues equalFold f v P.Values || searchGroups equalFold f v P.ValueGroup
          || match P.Children with
             | [] => false
             | c :: _ => searchInValues equalFold f v c) := by
  cases P with
  | mk id pid n vals groups x cs =>
    rw [searchInValues.eq_def]
    cases h1 : searchValues equalFold f v vals <;>
      cases h2 : searchGroups equalFold f v groups <;> simp [h1, h2]

/-- Claim C4: for a product `P` without children, `searchInValues(f, v, P)` is
true exactly when a direct value of `P` has an `AttributeID` equal to `f` under
`strings.EqualFold` and a `Text` equal to `v`, or a value group of `P` has an
`AttributeID` equal to `f` under `strings.EqualFold` and holds a value whose
`Text` equals `v`; the `AttributeID` of a value inside a group is not looked at. -/
theorem searchInValues_leaf_iff (equalFold : String → String → Bool) (f v : String)
    (P : Product) (h : P.Children = []) :
    searchInValues equalFold f v P = true
      ↔ (∃ x ∈ P.Values, equalFold x.AttributeID f = true ∧ x.Text = v)
        ∨ (∃ g ∈ P.ValueGroup, equalFold g.AttributeID f = true
            ∧ ∃ x ∈ g.Values, x.Text = v) := by
  rw [searchInValues_unfold, h]
  simp only [Bool.or_false, Bool.or_eq_true, searchValues_iff, searchGroups_iff]

theorem searchInValues_leaf_iff_witness :
    searchInValues asciiEqualFold "color" "Red" (leaf "1" "Color" "Red") = true
      ∧ searchInValues asciiEqualFold "color" "Red" (leaf "1" "Color" "red") = false
      ∧ searchInValues asciiEqualFold "color" "Red"
          ⟨"1", "", "", [], [⟨"Color", [⟨"Other", "Red"⟩]⟩], [], []⟩ = true := by
  refine ⟨?_, ?_, ?_⟩
  · exact (searchInValues_leaf_iff asciiEqualFold "color" "Red" (leaf "1" "Color" "Red")
      rfl).mpr (Or.inl ⟨⟨"Color", "Red"⟩, by simp [leaf], by decide, rfl⟩)
  · rw [Bool.eq_false_iff]
    intro hm
    rcases (searchInValues_leaf_iff asciiEqualFold "color" "Red" (leaf "1" "Color" "red")
      rfl).mp hm with ⟨x, hx, _, ht⟩ | ⟨g, hg, _⟩
    · simp only [leaf, List.mem_singleton] at hx
      subst hx
      exact absurd ht (by decide)
    · simp [leaf] at hg
  · exact (searchInValues_leaf_iff asciiEqualFold "color" "Red" _ rfl).mpr
      (Or.inr ⟨⟨"Color", [⟨"Other", "Red"⟩]⟩, by simp, by decide, ⟨"Other", "Red"⟩, by simp, rfl⟩)

/-- Claim C5: when the direct and grouped values of `P` itself do not match
(`P` without its children is not a match) and `P` has a first child `c`, then
`searchInValues(f, v, P)` is `searchInValues(f, v, c)`, whatever the children
after the first are: they are never examined. -/
theorem searchInValues_first_child (equalFold : String → String → Bool) (f v : String)
    (P c : Product) (others : List Product)
    (hown : searchInValues equalFold f v { P with Children := [] } = false)
    (hc : P.Children = c :: others) :
    searchInValues equalFold f v P = searchInValues equalFold f v c
      ∧ ∀ later : List Product,
          searchInValues equalFold f v { P with Children := c :: later }
            = searchInValues equalFold f v c := by
  rw [searchInValues_unfold] at hown
  simp only [Bool.or_false, Bool.or_eq_false_iff] at hown
  constructor
  · rw [searchInValues_unfold, hc]
    simp [hown.1, hown.2]
  · intro later
    rw [searchInValues_unfold]
    simp [hown.1, hown.2]

theorem searchInValues_first_child_witness :
    searchInValues asciiEqualFold "size" "M" scenario = true
      ∧ searchInValues asciiEqualFold "size" "M" secondChildOnly = false
      ∧ searchInValues asciiEqualFold "size" "M" (leaf "3" "Size" "M") = true := by
  have h1 := (searchInValues_first_child asciiEqualFold "size" "M" scenario
    (leaf "2" "Size" "M") [] (by decide) rfl).1
  have h2 := (searchInValues_first_child asciiEqualFold "size" "M" secondChildOnly
    (leaf "2" "Color" "Blue") [leaf "3" "Size" "M"] (by decide) rfl).1
  refine ⟨?_, ?_, by decide⟩
  · rw [h1]
    decide
  · rw [h2]
    decide

theorem searchInValues_setParents (equalFold : String → String → Bool) (f v : String) :
    ∀ (c : Product) (q : String),
      searchInValues equalFold f v (setParents q c) = searchInValues equalFold f v c
  | ⟨id, pid, n, vals, groups, x, []⟩, q => by
    rw [searchInValues_unfold, searchInValues_unfold equalFold f v ⟨id, pid, n, vals, groups, x, []⟩]
    simp [setParents, setParentsList]
  | ⟨id, pid, n, vals, groups, x, c :: cs⟩, q => by
    rw [searchInValues_unfold,
      searchInValues_unfold equalFold f v ⟨id, pid, n, vals, groups, x, c :: cs⟩]
    simp [setParents, setParentsList, searchInValues_setParents equalFold f v c id]

theorem searchInValues_setParentsTop (equalFold : String → String → Bool) (f v : String)
    (t : Product) :
    searchInValues equalFold f v (setParentsTop t) = searchInValues equalFold f v t := by
  cases t with
  | mk id pid n vals groups x cs =>
    have h := searchInValues_setParents equalFold f v ⟨id, pid, n, vals, groups, x, cs⟩ pid
    simpa [setParents, setParentsTop] using h

theorem matchProducts_fold (equalFold : String → String → Bool) (f v : String)
    (products : List Product) : ∀ acc : List Product,
    products.foldl
        (fun matched p => if searchInValues equalFold f v p then matched ++ [p] else matched) acc
      = acc ++ products.filter (fun p => searchInValues equalFold f v p) := by
  induction products with
  | nil => intro acc; simp
  | cons p ps ih =>
    intro acc
    simp only [List.foldl_cons, ih]
    cases h : searchInValues equalFold f v p <;> simp [h, List.filter_cons]

theorem matchProducts_spec (equalFold : String → String → Bool) (f v : String)
    (products : List Product) :
    matchProducts equalFold f v products
      = products.filter (fun p => searchInValues equalFold f v p) := by
  have h := matchProducts_fold equalFold f v products []
  simpa [matchProducts] using h

theorem mem_matchFresh (equalFold : String → String → Bool) (f v : String)
    (decoded : List Product) (m : Product) :
    m ∈ matchFresh equalFold f v decoded
      ↔ searchInValues equalFold f v m = true
        ∧ ((∃ t ∈ decoded, t.ID ≠ "" ∧ m = setParentsTop t)
          ∨ (∃ t ∈ decoded, t.ID ≠ "" ∧ ∃ x ∈ descendantsP t, x.2.ID ≠ ""
              ∧ m = setParents x.1 x.2)) := by
  rw [matchFresh, matchProducts_spec, List.mem_filter, parseProducts_spec, List.mem_append,
    and_comm]
  apply and_congr Iff.rfl
  apply or_congr
  · simp only [List.mem_map, List.mem_filter, decide_eq_true_eq]
    constructor
    · rintro ⟨t, ⟨ht, hne⟩, rfl⟩
      exact ⟨t, ht, hne, rfl⟩
    · rintro ⟨t, ht, hne, rfl⟩
      exact ⟨t, ⟨ht, hne⟩, rfl⟩
  · simp only [entries, List.mem_map, List.mem_filter, List.mem_flatMap, decide_eq_true_eq]
    constructor
    · rintro ⟨x, ⟨⟨t, ⟨ht, hne⟩, hx⟩, hxne⟩, rfl⟩
      exact ⟨t, ht, hne, x, hx, hxne, rfl⟩
    · rintro ⟨t, ht, hne, x, hx, hxne, rfl⟩
      exact ⟨x, ⟨⟨t, ⟨ht, hne⟩, hx⟩, hxne⟩, rfl⟩

/-- Claim C6, as stated, fails: for the catalog holding `secondChildOnly` and
the query Size = M, applying the matcher to the top-level products gives no
match, yet the match set of the program holds the nested product `3`, the
second child of product `1`, which is no top-level product. -/
theorem matchFresh_reports_nested :
    (matchFresh asciiEqualFold "size" "M" [secondChildOnly]).map
        (fun m => (m.ID, m.ParentID)) = [("3", "1")]
      ∧ matchProducts asciiEqualFold "size" "M" (decodeLoop [secondChildOnly]) = []
      ∧ ¬ (∀ m ∈ matchFresh asciiEqualFold "size" "M" [secondChildOnly],
            ∃ t ∈ [secondChildOnly], m.ID = t.ID) := by
  have h1 : (matchFresh asciiEqualFold "size" "M" [secondChildOnly]).map
      (fun m => (m.ID, m.ParentID)) = [("3", "1")] := by
    rw [matchFresh, matchProducts_spec, parseProducts_spec]
    decide
  refine ⟨h1, ?_, ?_⟩
  · rw [matchProducts_spec, decodeLoop_spec]
    rfl
  · intro h
    cases hm : matchFresh asciiEqualFold "size" "M" [secondChildOnly] with
    | nil => simp [hm] at h1
    | cons m ms =>
      rw [hm] at h1
      obtain ⟨t, ht, hid⟩ := h m (by simp [hm])
      simp only [List.mem_singleton] at ht
      subst ht
      simp only [List.map_cons, List.cons.injEq, Prod.mk.injEq] at h1
      rw [h1.1.1] at hid
      exact absurd hid (by decide)

/-- Claim C6, amended: the match set built after a fresh parse is obtained by
applying the matcher once per entry of the flattened collection that
`parseProducts` returns, top-level and nested entries alike.  A product is in
the match set exactly when the matcher accepts it and it is the entry of a
top-level product with a non-empty `ID` or of a product with a non-empty `ID`
nested at any depth inside one; so a nested product that the matcher accepts
is reported, whatever its position among the children of its parent. -/
theorem matchFresh_over_flat_list (equalFold : String → String → Bool) (f v : String)
    (decoded : List Product) :
    matchFresh equalFold f v decoded
        = (parseProducts decoded).filter (fun p => searchInValues equalFold f v p)
      ∧ (∀ m : Product, m ∈ matchFresh equalFold f v decoded
          ↔ searchInValues equalFold f v m = true
            ∧ ((∃ t ∈ decoded, t.ID ≠ "" ∧ m = setParentsTop t)
              ∨ (∃ t ∈ decoded, t.ID ≠ "" ∧ ∃ x ∈ descendantsP t, x.2.ID ≠ ""
                  ∧ m = setParents x.1 x.2)))
      ∧ (∀ t ∈ decoded, t.ID ≠ "" → ∀ x ∈ descendantsP t, x.2.ID ≠ "" →
          searchInValues equalFold f v x.2 = true →
            setParents x.1 x.2 ∈ matchFresh equalFold f v decoded) := by
  refine ⟨?_, mem_matchFresh equalFold f v decoded, ?_⟩
  · rw [matchFresh, matchProducts_spec]
  · intro t ht hne x hx hxne hs
    rw [mem_matchFresh]
    refine ⟨?_, Or.inr ⟨t, ht, hne, x, hx, hxne, rfl⟩⟩
    rw [searchInValues_setParents]
    exact hs

theorem matchFresh_over_flat_list_witness :
    setParents "1" (leaf "3" "Size" "M")
      ∈ matchFresh asciiEqualFold "size" "M" [secondChildOnly] :=
  (matchFresh_over_flat_list asciiEqualFold "size" "M" [secondChildOnly]).2.2
    secondChildOnly (by simp) (by decide) ("1", leaf "3" "Size" "M")
    (by simp [secondChildOnly, descendantsP, descList]) (by decide) (by decide)

/-! ## The claim about the output file name -/

theorem replaceFrom_space (cs : List Char) :
    replaceFrom [' '] ['_'] 0 cs = cs.map (fun c => if c = ' ' then '_' else c) := by
  induction cs with
  | nil => simp [replaceFrom]
  | cons c cs ih =>
    by_cases h : c = ' '
    · simp [replaceFrom, h, ih]
    · have hs : ¬ ' ' = c := fun e => h e.symm
      simp [replaceFrom, h, hs, ih]

theorem fileName_data (p : Product) :
    (fileName p).data
      = ("step-" ++ p.ID ++ "-" ++ p.Name ++ ".json").data.map
          (fun c => if c = ' ' then '_' else c) := by
  simp [fileName, sprintfStep, replaceFrom_space]

theorem map_space_id (cs : List Char) (h : ' ' ∉ cs) :
    cs.map (fun c => if c = ' ' then '_' else c) = cs := by
  induction cs with
  | nil => rfl
  | cons c cs ih =>
    simp only [List.mem_cons, not_or] at h
    have hc : ¬ c = ' ' := fun e => h.1 e.symm
    simp [hc, ih h.2]

/-- Claim C8, as stated, fails: for the product with `ID` `a b` and `Name`
`x<tab>y` the file name is `step-a_b-x<tab>y.json`: the space of the `ID` is
replaced and the tab of the `Name` is kept, where the claim gives
`step-a b-x_y.json`. -/
theorem fileName_differs_from_spec :
    fileName spacedNames = "step-a_b-x\ty.json"
      ∧ fileNameSpec spacedNames = "step-a b-x_y.json"
      ∧ fileName spacedNames ≠ fileNameSpec spacedNames := by
  decide

/-- Claim C8, amended: the file name of a matched product is a function of its
`ID` and `Name` only: it is `step-<ID>-<Name>.json` in which every space
character (U+0020), of the `ID` as of the `Name`, is replaced by an underscore
and every other character, other whitespace included, is kept; so the `ID` is
carried unchanged when it holds no space. -/
theorem fileName_replaces_spaces (p : Product) :
    (fileName p).data
        = ("step-" ++ p.ID ++ "-" ++ p.Name ++ ".json").data.map
            (fun c => if c = ' ' then '_' else c)
      ∧ (∀ q : Product, q.ID = p.ID → q.Name = p.Name → fileName q = fileName p)
      ∧ (' ' ∉ p.ID.data →
          fileName p = "step-" ++ p.ID ++ "-"
            ++ String.mk (p.Name.data.map (fun c => if c = ' ' then '_' else c)) ++ ".json") := by
  refine ⟨fileName_data p, ?_, ?_⟩
  · intro q h1 h2
    simp [fileName, h1, h2]
  · intro h
    apply String.ext
    rw [fileName_data]
    simp only [String.data_append, List.map_append, map_space_id p.ID.data h]
    rfl

theorem fileName_replaces_spaces_witness :
    fileName ⟨"a1", "", "x y\tz", [], [], [], []⟩ = "step-a1-x_y\tz.json" :=
  (fileName_replaces_spaces ⟨"a1", "", "x y\tz", [], [], [], []⟩).2.2 (by decide)

end StepFileViewer
